import Mathlib

/-!
Verification development for the `gandiva::StringParser` string-to-number
conversion core (`cpp/src/gandiva/precompiled/string_parser.h`).

The C++ code is shallowly embedded: byte spans become `List Char` (each char
standing for one input byte, compared through its code point `Char.toNat`,
mirroring the C `char` comparisons in the source), machine integers become
`Nat`/`Int` with explicit `% 2^w` wrapping where the source uses w-bit
unsigned arithmetic, and the two-sided out-parameter convention
`(T value, ParseResult* result)` becomes a returned pair
`ParseResult × Int`.  Widths are passed explicitly: `w ∈ {8,16,32,64}`
corresponds to the `int8_t/int16_t/int32_t/int64_t` template instantiations.

Two helpers of the source live in `decimal_util.h`, which is not part of the
given sources; they are modelled from the specification text and are marked
as such in their doc comments (`getScaleMultiplier`, `scaleDownAndRound`).
Everything else is translated directly from `string_parser.h`.
-/

namespace StringParserModel

/-- `StringParser::ParseResult` (string_parser.h lines 54-59). -/
inductive ParseResult where
  | Success
  | Failure
  | Overflow
  | Underflow
  deriving DecidableEq, Repr

/-- Abbreviation used by concrete test statements: the character list of a
string literal. -/
def chars (s : String) : List Char := s.data

/-- `StringParser::IsWhitespace` (lines 612-615): space, tab, newline,
vertical tab, form feed, carriage return, compared by code point. -/
def isWhitespace (c : Char) : Bool :=
  c.toNat = 32 || c.toNat = 9 || c.toNat = 10 || c.toNat = 11 ||
  c.toNat = 12 || c.toNat = 13

/-- `StringParser::IsAllWhitespace` (lines 563-568). -/
def isAllWhitespace : List Char → Bool
  | [] => true
  | c :: cs => isWhitespace c && isAllWhitespace cs

/-- `StringParser::SkipLeadingWhitespace` (lines 556-560), expressed as the
list remaining after the skipped prefix (the source returns the index `i`;
the callers only ever use `s + i, len - i`, i.e. this suffix). -/
def ltrim : List Char → List Char
  | [] => []
  | c :: cs => if isWhitespace c then ltrim cs else c :: cs

/-- Removal of trailing whitespace, as performed by the leading loop of
`StringToDecimal` (lines 119-121: `while (len > 0 && IsWhitespace(s[len-1])) --len`). -/
def rtrim (l : List Char) : List Char := (ltrim l.reverse).reverse

/-- Two's-complement reinterpretation of a w-bit unsigned value as signed:
the effect of `static_cast<T>` from the unsigned accumulator in the source. -/
def castToSigned (w : Nat) (n : Nat) : Int :=
  if n < 2 ^ (w - 1) then (n : Int) else (n : Int) - 2 ^ w

/-- `static_cast<T>(negative ? -val : val)` on the w-bit unsigned accumulator
`val` (the unsigned negation wraps modulo `2^w`). -/
def signResult (w : Nat) (negative : Bool) (val : Nat) : Int :=
  castToSigned w (if negative then (2 ^ w - val % 2 ^ w) % 2 ^ w else val % 2 ^ w)

/-- `StringParser::StringParseTraits<T>::max_ascii_len` (lines 618-636):
3/5/10/19 for widths 8/16/32/64.  The source only instantiates these four
widths; other widths would not link, so the value returned for them here is
irrelevant to every claim (all statements fix `w` to one of the four). -/
def maxAsciiLen (w : Nat) : Nat :=
  if w = 8 then 3 else if w = 16 then 5 else if w = 32 then 10 else
  if w = 64 then 19 else 0

/-- Loop of `StringParser::StringToIntNoOverflow` (lines 595-609): unchecked
decimal accumulation in w-bit unsigned arithmetic, trailing whitespace
allowed. -/
def noOverflowLoop (w : Nat) (val : Nat) : List Char → ParseResult × Nat
  | [] => (.Success, val)
  | c :: cs =>
    if 48 ≤ c.toNat ∧ c.toNat ≤ 57 then
      noOverflowLoop w ((val * 10 + (c.toNat - 48)) % 2 ^ w) cs
    else
      if isAllWhitespace (c :: cs) then (.Success, val) else (.Failure, 0)

/-- `StringParser::StringToIntNoOverflow` (lines 581-610).  Returns the w-bit
unsigned accumulator together with the parse result. -/
def stringToIntNoOverflow (w : Nat) : List Char → ParseResult × Nat
  | [] => (.Success, 0)
  | c :: cs =>
    if 48 ≤ c.toNat ∧ c.toNat ≤ 57 then noOverflowLoop w (c.toNat - 48) cs
    else (.Failure, 0)

/-- Loop of the decimal `StringParser::StringToIntInternal` overflow-checked
slow path (lines 292-315).  `first` records whether the scan is still at the
first character after the optional sign (`i == first` in the source);
`maxVal` is `max_val` (`2^(w-1)` when negative, `2^(w-1) - 1` otherwise). -/
def intLoop (w : Nat) (negative : Bool) (maxVal : Nat) (val : Nat)
    (first : Bool) : List Char → ParseResult × Int
  | [] => (.Success, signResult w negative val)
  | c :: cs =>
    if 48 ≤ c.toNat ∧ c.toNat ≤ 57 then
      let digit := c.toNat - 48
      if maxVal / 10 - (if maxVal % 10 < digit then 1 else 0) < val then
        (.Overflow, signResult w negative maxVal)
      else
        intLoop w negative maxVal ((val * 10 + digit) % 2 ^ w) false cs
    else
      if first = true ∨ isAllWhitespace (c :: cs) = false then (.Failure, 0)
      else (.Success, signResult w negative val)

/-- Decimal `StringParser::StringToIntInternal<T>` (lines 263-316): optional
sign, then either the no-overflow fast path (when fewer than `max_ascii_len`
characters remain) or the overflow-checked loop. -/
def stringToIntInternal (w : Nat) : List Char → ParseResult × Int
  | [] => (.Failure, 0)
  | c :: cs =>
    let negative := c.toNat = 45
    let maxVal := if c.toNat = 45 then 2 ^ (w - 1) else 2 ^ (w - 1) - 1
    let rest := if c.toNat = 45 ∨ c.toNat = 43 then cs else c :: cs
    if rest.length < maxAsciiLen w then
      let pr := stringToIntNoOverflow w rest
      (pr.1, signResult w (decide negative) pr.2)
    else
      intLoop w (decide negative) maxVal 0 true rest

/-- Public `StringParser::StringToInt(s, len, result)` (lines 61-68): parse,
and on any non-success retry once after skipping leading whitespace. -/
def stringToInt (w : Nat) (s : List Char) : ParseResult × Int :=
  let pr := stringToIntInternal w s
  if pr.1 = .Success then pr else stringToIntInternal w (ltrim s)

/-- Digit value of an alphanumeric character as computed by the base-parsing
`StringToIntInternal` (lines 346-351): `0-9`, then case-insensitive letters
as 10..35. -/
def alnumDigitVal (c : Char) : Nat :=
  if 48 ≤ c.toNat ∧ c.toNat ≤ 57 then c.toNat - 48
  else if 97 ≤ c.toNat ∧ c.toNat ≤ 122 then c.toNat - 97 + 10
  else c.toNat - 65 + 10

/-- Loop of the base-parsing `StringParser::StringToIntInternal` (lines
344-373).  A digit not available in the base breaks out of the loop straight
to the success epilogue (line 364); a non-alphanumeric character is the
terminator that performs the first-character / all-whitespace check. -/
def baseLoop (w : Nat) (negative : Bool) (maxVal : Nat) (base : Nat)
    (val : Nat) (first : Bool) : List Char → ParseResult × Int
  | [] => (.Success, signResult w negative val)
  | c :: cs =>
    if (48 ≤ c.toNat ∧ c.toNat ≤ 57) ∨ (97 ≤ c.toNat ∧ c.toNat ≤ 122) ∨
        (65 ≤ c.toNat ∧ c.toNat ≤ 90) then
      let digit := alnumDigitVal c
      if base ≤ digit then (.Success, signResult w negative val)
      else if maxVal / base - (if maxVal % base < digit then 1 else 0) < val then
        (.Overflow, signResult w negative maxVal)
      else
        baseLoop w negative maxVal base ((val * base + digit) % 2 ^ w) false cs
    else
      if first = true ∨ isAllWhitespace (c :: cs) = false then (.Failure, 0)
      else (.Success, signResult w negative val)

/-- Base-parsing `StringParser::StringToIntInternal<T>` (lines 320-376).
The base argument is modelled as a `Nat` (the source takes an `int32_t`; a
zero or negative base makes the source's `max_val / base` a division by zero
or sign-dependent, and no claim instantiates such a base: `base = 0` in this
model takes Lean's `n / 0 = 0` convention). -/
def stringToIntBaseInternal (w : Nat) (s : List Char) (base : Nat) :
    ParseResult × Int :=
  match s with
  | [] => (.Failure, 0)
  | c :: cs =>
    let negative := c.toNat = 45
    let maxVal := if c.toNat = 45 then 2 ^ (w - 1) else 2 ^ (w - 1) - 1
    let rest := if c.toNat = 45 ∨ c.toNat = 43 then cs else c :: cs
    baseLoop w (decide negative) maxVal base 0 true rest

/-- Public `StringParser::StringToInt(s, len, base, result)` (lines 70-79):
parse in the given base, retrying once after leading whitespace on
non-success. -/
def stringToIntBase (w : Nat) (s : List Char) (base : Nat) :
    ParseResult × Int :=
  let pr := stringToIntBaseInternal w s base
  if pr.1 = .Success then pr else stringToIntBaseInternal w (ltrim s) base

/-- Modelled from the spec: `DecimalUtil::GetScaleMultiplier<T>(k)` lives in
`decimal_util.h`, which is not among the given sources.  The spec describes it
as the type's "scale multiplier" / "top-of-range multiplier" used to scale
values up by `10^k` and to detect the rounding cascade at `10^type_precision`,
so it is the power `10^k`. -/
def getScaleMultiplier (k : Nat) : Nat := 10 ^ k

/-- Modelled from the spec: `DecimalUtil::ScaleDownAndRound<T>(value, shift,
round)` lives in `decimal_util.h`, which is not among the given sources.  Per
the spec (§4.5 step 7) it scales the (nonnegative) value down by `10^shift`
"with explicit round-half-up or pure truncation per `round`". -/
def scaleDownAndRound (value : Nat) (shift : Nat) (round : Bool) : Nat :=
  let d := getScaleMultiplier shift
  if round = true ∧ d ≤ 2 * (value % d) then value / d + 1 else value / d

/-- The scan state of the `StringToDecimal` forward pass (lines 134-199):
`found_value`, `found_dot`, `digits_after_dot_count`, `total_digits_count`,
`first_truncated_digit` and the nonnegative accumulator `value` (the signed
accumulator of the source never goes negative: only digit values are added;
the sign is applied in the final return). -/
structure ScanState where
  foundValue : Bool
  foundDot : Bool
  dadc : Nat
  tdc : Nat
  firstTrunc : Nat
  value : Nat
  deriving DecidableEq, Repr

/-- One digit step of the `StringToDecimal` scan loop (lines 166-182):
accumulate while fewer than `type_precision` digits were seen, else remember
the first truncated digit when rounding is requested. -/
def digitStep (p : Nat) (round : Bool) (st : ScanState) (c : Char) : ScanState :=
  { foundValue := true
    foundDot := st.foundDot
    dadc := st.dadc + (if st.foundDot = true then 1 else 0)
    tdc := st.tdc + 1
    firstTrunc :=
      if st.tdc < p then st.firstTrunc
      else if round = true ∧ st.tdc = p then c.toNat - 48 else st.firstTrunc
    value := if st.tdc < p then st.value * 10 + (c.toNat - 48) else st.value }

/-- The `StringToDecimal` scan loop (lines 164-199).  `Sum.inl` is an early
return (exponent-parse failure remap, lines 187-193, or a malformed character,
lines 195-197, both returning `DecimalValue<T>(0)`); `Sum.inr` carries the
final state and the parsed `int8_t` exponent (0 when no marker was found).
The `found_exponent` flag of the source needs no counterpart: a successful
exponent parse immediately `break`s out of the loop, so the flag is never
observed `true`. -/
def decScanLoop (p : Nat) (round : Bool) (st : ScanState) :
    List Char → (ParseResult × Int) ⊕ (ScanState × Int)
  | [] => .inr (st, 0)
  | c :: cs =>
    if 48 ≤ c.toNat ∧ c.toNat ≤ 57 then
      decScanLoop p round (digitStep p round st c) cs
    else if c.toNat = 46 ∧ st.foundDot = false then
      decScanLoop p round { st with foundDot := true } cs
    else if c.toNat = 101 ∨ c.toNat = 69 then
      let pr := stringToIntInternal 8 cs
      if pr.1 = .Success then .inr (st, pr.2)
      else .inl (if pr.1 = .Overflow ∧ pr.2 < 0 then (.Underflow, 0) else (pr.1, 0))
    else .inl (.Failure, 0)

/-- Output of `StringParser::ApplyExponent` (lines 380-402): the adjusted
value and the `precision` and `scale` of the parsed number itself. -/
structure AEOut where
  value : Nat
  precision : Int
  scale : Int
  deriving DecidableEq, Repr

/-- `StringParser::ApplyExponent` (lines 380-402). -/
def applyExponent (tdc dadc : Nat) (e : Int) (value : Nat) : AEOut :=
  if (dadc : Int) < e then
    { value := value * getScaleMultiplier (e - (dadc : Int)).toNat
      precision := (tdc : Int) + (e - (dadc : Int))
      scale := 0 }
  else
    { value := value
      precision := if (tdc : Int) < (dadc : Int) - e then (dadc : Int) - e else (tdc : Int)
      scale := (dadc : Int) - e }

/-- `is_negative ? -value : value` (line 255). -/
def applySign (negative : Bool) (value : Nat) : Int :=
  if negative then -(value : Int) else (value : Int)

/-- Classification of the scanned number against the target type, lines
201-255 of `StringToDecimal`: overflow of the integer-digit budget, underflow
with scale-down or last-kept-digit rounding (which may cascade into
overflow), the no-digits failure, the scale-up case and plain success.  The
sign is applied in every branch by the final return of the source. -/
def decClassify (p sc : Nat) (round negative : Bool) (st : ScanState)
    (ae : AEOut) : ParseResult × Int :=
  let truncated : Nat := st.tdc - p
  if (p : Int) - (sc : Int) < ae.precision - ae.scale then
    (.Overflow, applySign negative ae.value)
  else if (sc : Int) < ae.scale then
    let valueScale : Int := ae.scale - (truncated : Int)
    let shift : Int := valueScale - (sc : Int)
    if 0 < shift then
      (.Underflow, applySign negative (scaleDownAndRound ae.value shift.toNat round))
    else
      let v := ae.value + (if 5 ≤ st.firstTrunc then 1 else 0)
      (if v = getScaleMultiplier p then .Overflow else .Underflow,
       applySign negative v)
  else if st.foundValue = false ∧ st.foundDot = false then
    (.Failure, applySign negative ae.value)
  else if ae.scale < (sc : Int) then
    (.Success, applySign negative (ae.value * getScaleMultiplier ((sc : Int) - ae.scale).toNat))
  else (.Success, applySign negative ae.value)

/-- `'-'`/`'+'` handling of `StringToDecimal` (lines 123-132). -/
def decSignSplit (t : List Char) : Bool × List Char :=
  match t with
  | [] => (false, [])
  | c :: cs =>
    if c.toNat = 45 then (true, cs)
    else if c.toNat = 43 then (false, cs) else (false, c :: cs)

/-- The leading-zero counter of `StringToDecimal` (lines 136-140 and
151-156): number of leading `'0'` characters and the remaining suffix. -/
def spanZeros : List Char → Nat × List Char
  | [] => (0, [])
  | c :: cs =>
    if c.toNat = 48 then
      let r := spanZeros cs
      (r.1 + 1, r.2)
    else (0, c :: cs)

/-- Preprocessing result of `StringToDecimal`: sign, initial scan state, and
the suffix handed to the scan loop. -/
structure DecPrep where
  negative : Bool
  init : ScanState
  rest : List Char
  deriving DecidableEq, Repr

/-- The dot-skipping phase of `StringToDecimal` (lines 145-157): when the
character after the leading zeros is a dot, consume it and further leading
zeros, counting them as digits after the dot. -/
def decDotPhase (fv : Bool) (l : List Char) : ScanState × List Char :=
  match l with
  | [] => (⟨fv, false, 0, 0, 0, 0⟩, [])
  | c :: cs =>
    if c.toNat = 46 then
      let z := spanZeros cs
      (⟨fv || decide (0 < z.1), true, z.1, 0, 0, 0⟩, z.2)
    else (⟨fv, false, 0, 0, 0, 0⟩, c :: cs)

/-- Lines 114-157 of `StringToDecimal`: trim both ends, take the sign, skip
leading zeros before and (after a dot) behind the decimal point. -/
def decPrep (s : List Char) : DecPrep :=
  let t := rtrim (ltrim s)
  let sg := decSignSplit t
  let z1 := spanZeros sg.2
  let dp := decDotPhase (decide (0 < z1.1)) z1.2
  ⟨sg.1, dp.1, dp.2⟩

/-- `StringParser::StringToDecimal<T>` (lines 104-256), returning the raw
integer (`DecimalValue<T>::value()`) together with the parse result.  The
accumulator type `T` is embedded as unbounded (the source guards it against
overflow by never accumulating more than `type_precision` digits). -/
def stringToDecimal (s : List Char) (p sc : Nat) (round : Bool) :
    ParseResult × Int :=
  match decScanLoop p round (decPrep s).init (decPrep s).rest with
  | .inl res => res
  | .inr (st, e) =>
    decClassify p sc round (decPrep s).negative st
      (applyExponent st.tdc st.dadc e st.value)

/-- Fuel-driven digit expansion; `natDigits` instantiates the fuel at `n + 1`,
which always suffices. -/
def natDigitsAux : Nat → Nat → List Char
  | 0, _ => []
  | fuel + 1, n =>
    if n < 10 then [Char.ofNat (48 + n)]
    else natDigitsAux fuel (n / 10) ++ [Char.ofNat (48 + n % 10)]

/-- Decimal digit characters (code points 48-57) of a natural number, most
significant first; `natDigits 0 = ['0']`. -/
def natDigits (n : Nat) : List Char := natDigitsAux (n + 1) n

/-- `n` rendered as exactly `sc` decimal digits (zero-padded on the left);
meaningful for `n < 10^sc`. -/
def natPad (n sc : Nat) : List Char :=
  List.replicate (sc - (natDigits n).length) (Char.ofNat 48) ++ natDigits n

/-- An exponent marker: `'e'` (code 101) or `'E'` (code 69). -/
def isExpMarker (m : Char) : Prop := m.toNat = 101 ∨ m.toNat = 69

/-- The numeric value of a list of decimal digit characters, most significant
first (the value that repeated `value * 10 + (c - '0')` accumulation
produces from initial value 0). -/
def digitsVal (ds : List Char) : Nat :=
  ds.foldl (fun a c => a * 10 + (c.toNat - 48)) 0

/-- The unsigned part of the canonical rendering: integer digits, then, when
`sc > 0`, a dot and exactly `sc` fractional digits. -/
def renderNat (m : Nat) (sc : Nat) : List Char :=
  natDigits (m / 10 ^ sc) ++
    (if sc = 0 then [] else Char.ofNat 46 :: natPad (m % 10 ^ sc) sc)

/-- The canonical textual rendering of a raw decimal value at scale `sc`
(spec §8, idempotence): optional `'-'`, the integer digits, and — when
`sc > 0` — a dot followed by exactly `sc` fractional digits. -/
def renderDecimal (v : Int) (sc : Nat) : List Char :=
  (if v < 0 then [Char.ofNat 45] else []) ++ renderNat v.natAbs sc

/-- C1: for every signed width w ∈ {8,16,32,64}, `parse_int` of the exact
decimal literal of the minimum (resp. maximum) value of width w returns
`Success` with exactly that boundary value, and `parse_int` of the literal of
minimum-minus-one (resp. maximum-plus-one) returns `Overflow` with the
minimum (resp. maximum) representable value, sign-matched to the input. -/
theorem parse_int_boundary_clamp :
    stringToInt 8 (chars "127") = (.Success, 127) ∧
    stringToInt 8 (chars "-128") = (.Success, -128) ∧
    stringToInt 8 (chars "128") = (.Overflow, 127) ∧
    stringToInt 8 (chars "-129") = (.Overflow, -128) ∧
    stringToInt 16 (chars "32767") = (.Success, 32767) ∧
    stringToInt 16 (chars "-32768") = (.Success, -32768) ∧
    stringToInt 16 (chars "32768") = (.Overflow, 32767) ∧
    stringToInt 16 (chars "-32769") = (.Overflow, -32768) ∧
    stringToInt 32 (chars "2147483647") = (.Success, 2147483647) ∧
    stringToInt 32 (chars "-2147483648") = (.Success, -2147483648) ∧
    stringToInt 32 (chars "2147483648") = (.Overflow, 2147483647) ∧
    stringToInt 32 (chars "-2147483649") = (.Overflow, -2147483648) ∧
    stringToInt 64 (chars "9223372036854775807") = (.Success, 9223372036854775807) ∧
    stringToInt 64 (chars "-9223372036854775808") = (.Success, -9223372036854775808) ∧
    stringToInt 64 (chars "9223372036854775808") = (.Overflow, 9223372036854775807) ∧
    stringToInt 64 (chars "-9223372036854775809") = (.Overflow, -9223372036854775808) := by
  decide

/-- C2: `parse_decimal("123.456", type_precision=6, type_scale=2)` returns
`Underflow` in both rounding modes, with raw value 12346 when `round=true`
and 12345 when `round=false`. -/
theorem parse_decimal_123_456_underflow :
    stringToDecimal (chars "123.456") 6 2 true = (.Underflow, 12346) ∧
    stringToDecimal (chars "123.456") 6 2 false = (.Underflow, 12345) := by
  decide

/-- C6 counterexample: at input "1z" with base 10 (32-bit width), the scan
terminates at 'z' (digit value 35, not valid in base 10) and returns
`Success` with the accumulated value 1, even though the remaining characters
"z" are not all whitespace — contradicting the claim that `Success` is
returned only when the remainder at the point of termination is all
whitespace and `Failure` otherwise. -/
theorem base_digit_term_counterexample :
    stringToIntBase 32 (chars "1z") 10 = (.Success, 1) ∧
    isAllWhitespace (chars "z") = false := by
  decide

/-- C7 counterexample: the base argument 1 lies outside [2,36], yet
`parse_int_base("0", base=1)` returns `Success` with value 0, not `Failure`;
the source never validates the base argument. -/
theorem base_range_counterexample :
    stringToIntBase 32 (chars "0") 1 = (.Success, 0) ∧
    ¬(2 ≤ 1 ∧ 1 ≤ 36) := by
  decide

/-- C10: for every signed width, `parse_int` of a one-byte input that is just
a sign character ("+" or "-") returns `Success` with value 0, and so does
`parse_int_base` for every base: after the sign is consumed zero characters
remain, which the no-overflow fast path and the base-parsing loop both treat
as a successful parse of zero. -/
theorem parse_int_sign_only_success (w : Nat) (base : Nat)
    (hw : w = 8 ∨ w = 16 ∨ w = 32 ∨ w = 64) :
    stringToInt w (chars "+") = (.Success, 0) ∧
    stringToInt w (chars "-") = (.Success, 0) ∧
    stringToIntBase w (chars "+") base = (.Success, 0) ∧
    stringToIntBase w (chars "-") base = (.Success, 0) := by
  rcases hw with h | h | h | h <;> subst h <;>
    exact ⟨by decide, by decide, rfl, rfl⟩

/-- C10 witness: instantiation at width 64 and base 7. -/
theorem parse_int_sign_only_success_witness :
    stringToInt 64 (chars "+") = (.Success, 0) ∧
    stringToInt 64 (chars "-") = (.Success, 0) ∧
    stringToIntBase 64 (chars "+") 7 = (.Success, 0) ∧
    stringToIntBase 64 (chars "-") 7 = (.Success, 0) :=
  parse_int_sign_only_success 64 7 (by decide)

/-- C4: whenever the parsed number's precision minus scale (as computed by
`ApplyExponent`) exceeds `type_precision - type_scale`, `parse_decimal`
returns `Overflow` with the accumulated value as-is (digits beyond the first
`type_precision` were dropped during accumulation), the sign applied at the
end; in particular `parse_decimal("999999", 5, 0, r)` returns `Overflow`
with raw value 99999 for both rounding modes. -/
theorem parse_decimal_integer_budget_overflow :
    (∀ (s : List Char) (p sc : Nat) (r : Bool) (st : ScanState) (e : Int)
      (ae : AEOut),
      decScanLoop p r (decPrep s).init (decPrep s).rest = .inr (st, e) →
      applyExponent st.tdc st.dadc e st.value = ae →
      (p : Int) - (sc : Int) < ae.precision - ae.scale →
      stringToDecimal s p sc r =
        (.Overflow, applySign (decPrep s).negative ae.value)) ∧
    stringToDecimal (chars "999999") 5 0 true = (.Overflow, 99999) ∧
    stringToDecimal (chars "999999") 5 0 false = (.Overflow, 99999) := by
  refine ⟨?_, by decide, by decide⟩
  intro s p sc r st e ae hscan hae hov
  unfold stringToDecimal
  rw [hscan]
  dsimp only
  rw [hae]
  simp only [decClassify]
  rw [if_pos hov]

/-- C4 witness: the general statement instantiated at the input "999999"
with `type_precision = 5`, `type_scale = 0`, `round = true`. -/
theorem parse_decimal_integer_budget_overflow_witness :
    stringToDecimal (chars "999999") 5 0 true = (.Overflow, 99999) := by
  have h := parse_decimal_integer_budget_overflow.1 (chars "999999") 5 0 true
    ⟨true, false, 0, 6, 9, 99999⟩ 0 ⟨99999, 6, 0⟩ (by decide) (by decide) (by decide)
  exact h.trans (by decide)

/-- C3: in `parse_decimal` with `round = true`, when the parsed number has
more fractional digits than `type_scale` and the accumulator already holds
exactly `type_precision` digits (the shift `value_scale - type_scale` is 0),
the magnitude is incremented by one exactly when the remembered first
truncated digit is ≥ 5, and the result is `Overflow` — instead of
`Underflow` — exactly when the incremented magnitude reaches
`10^type_precision`; this overflow branch is reachable, e.g. by the input
"99999.9" with `type_precision = 5`, `type_scale = 0`, `round = true`. -/
theorem parse_decimal_round_cascade_overflow :
    (∀ (s : List Char) (p sc : Nat) (st : ScanState) (e : Int) (ae : AEOut),
      decScanLoop p true (decPrep s).init (decPrep s).rest = .inr (st, e) →
      applyExponent st.tdc st.dadc e st.value = ae →
      ¬((p : Int) - (sc : Int) < ae.precision - ae.scale) →
      (sc : Int) < ae.scale →
      ae.scale - ((st.tdc - p : Nat) : Int) - (sc : Int) = 0 →
      stringToDecimal s p sc true =
        ((if ae.value + (if 5 ≤ st.firstTrunc then 1 else 0) = getScaleMultiplier p
          then ParseResult.Overflow else ParseResult.Underflow),
         applySign (decPrep s).negative
           (ae.value + (if 5 ≤ st.firstTrunc then 1 else 0)))) ∧
    stringToDecimal (chars "99999.9") 5 0 true = (.Overflow, 100000) := by
  refine ⟨?_, by decide⟩
  intro s p sc st e ae hscan hae hnov hun hshift
  unfold stringToDecimal
  rw [hscan]
  dsimp only
  rw [hae]
  simp only [decClassify]
  rw [if_neg hnov, if_pos hun,
    if_neg (by omega : ¬(0 : Int) < ae.scale - ((st.tdc - p : Nat) : Int) - (sc : Int))]

/-- C3 witness: the general statement instantiated at "99999.9" with
`type_precision = 5`, `type_scale = 0`: the first truncated digit 9 rounds
the accumulator 99999 up to 100000 = 10^5, which is classified `Overflow`. -/
theorem parse_decimal_round_cascade_overflow_witness :
    stringToDecimal (chars "99999.9") 5 0 true = (.Overflow, 100000) := by
  have h := parse_decimal_round_cascade_overflow.1 (chars "99999.9") 5 0
    ⟨true, true, 1, 6, 9, 99999⟩ 0 ⟨99999, 6, 1⟩ (by decide) (by decide)
    (by decide) (by decide) (by decide)
  exact h.trans (by decide)

/-- C6 (amended): for `parse_int_base` with a base in [2,36], an alphanumeric
digit character whose value is not valid in the requested base terminates the
scan without marking failure and the parse returns `Success` with the
accumulated value regardless of the characters remaining at the point of
termination — no whitespace check is applied on this termination path (the
remaining characters start with the terminating alphanumeric character, so
they are never all whitespace). -/
theorem base_digit_term_success_amended :
    (∀ (w base : Nat) (c : Char), 2 ≤ base ∧ base ≤ 36 →
      (48 ≤ c.toNat ∧ c.toNat ≤ 57) ∨ (97 ≤ c.toNat ∧ c.toNat ≤ 122) ∨
        (65 ≤ c.toNat ∧ c.toNat ≤ 90) →
      base ≤ alnumDigitVal c →
      stringToIntBase w [c] base = (.Success, 0)) ∧
    stringToIntBase 32 (chars "1z") 10 = (.Success, 1) ∧
    stringToIntBase 32 (chars "9") 8 = (.Success, 0) := by
  refine ⟨?_, by decide, by decide⟩
  intro w base c hbase halnum hinval
  have hor : ¬(c.toNat = 45 ∨ c.toNat = 43) := by omega
  simp only [stringToIntBase, stringToIntBaseInternal]
  rw [if_neg hor]
  simp only [baseLoop]
  rw [if_pos halnum, if_pos hinval]
  simp [signResult, castToSigned, Nat.pos_pow_of_pos]

/-- C6 witness: width 32, base 16, terminating character 'z' (digit value
35, not valid in base 16). -/
theorem base_digit_term_success_amended_witness :
    stringToIntBase 32 [Char.ofNat 122] 16 = (.Success, 0) :=
  base_digit_term_success_amended.1 32 16 (Char.ofNat 122)
    (by decide) (by decide) (by decide)

/-- C7 (amended): `parse_int_base` performs no validation of the base
argument at all; a base outside [2,36] is not rejected and does not fold
into `Failure` — the scan simply runs with the given base.  For every base
≥ 1 the input "0" parses as `Success` with value 0 (for base 0 the source
divides by zero), and base 37 accepts 'z' as the digit 35. -/
theorem base_no_validation_amended :
    (∀ (w base : Nat), 1 ≤ base →
      stringToIntBase w (chars "0") base = (.Success, 0)) ∧
    stringToIntBase 32 (chars "z") 37 = (.Success, 35) := by
  refine ⟨?_, by decide⟩
  intro w base hbase
  have hle : ¬(base ≤ 0) := by omega
  have hc : chars "0" = ['0'] := rfl
  have h0 : ('0').toNat = 48 := rfl
  rw [hc]
  simp only [stringToIntBase, stringToIntBaseInternal, baseLoop, alnumDigitVal, h0]
  norm_num [hle, signResult, castToSigned, Nat.pos_pow_of_pos]

/-- C7 witness: width 8 and base 37, a base outside [2,36]. -/
theorem base_no_validation_amended_witness :
    stringToIntBase 8 (chars "0") 37 = (.Success, 0) :=
  base_no_validation_amended.1 8 37 (by decide)

theorem ltrim_length : ∀ l : List Char, (ltrim l).length ≤ l.length := by
  intro l
  induction l with
  | nil => simp [ltrim]
  | cons c cs ih =>
    simp only [ltrim]
    split
    · exact le_trans ih (by simp)
    · simp

theorem ltrim_cons_of_not_ws {c : Char} (l : List Char)
    (h : isWhitespace c = false) : ltrim (c :: l) = c :: l := by
  simp [ltrim, h]

theorem ltrim_append_eq_self {l : List Char} (m : List Char)
    (h : ltrim l = l) (hne : l ≠ []) : ltrim (l ++ m) = l ++ m := by
  cases l with
  | nil => exact absurd rfl hne
  | cons c cs =>
    have hws : isWhitespace c = false := by
      by_contra hw
      rw [Bool.not_eq_false] at hw
      have := ltrim_length cs
      simp [ltrim, hw] at h
      have hlen := congrArg List.length h
      simp at hlen
      omega
    rw [List.cons_append, ltrim_cons_of_not_ws _ hws]

theorem not_ws_of_digit {c : Char} (h : 48 ≤ c.toNat ∧ c.toNat ≤ 57) :
    isWhitespace c = false := by
  simp only [isWhitespace, Bool.or_eq_false_iff, decide_eq_false_iff_not]
  omega

theorem not_ws_of_marker {m : Char} (hm : isExpMarker m) :
    isWhitespace m = false := by
  simp only [isWhitespace, Bool.or_eq_false_iff, decide_eq_false_iff_not]
  rcases hm with h | h <;> omega

theorem rtrim_digits_marker_append (pre rest : List Char) {m : Char}
    (hm : isExpMarker m)
    (hpre : ∀ c ∈ pre, 48 ≤ c.toNat ∧ c.toNat ≤ 57)
    (hr : rtrim rest = rest) :
    rtrim (ltrim (pre ++ m :: rest)) = pre ++ m :: rest := by
  have hltrim : ltrim (pre ++ m :: rest) = pre ++ m :: rest := by
    cases pre with
    | nil => exact ltrim_cons_of_not_ws _ (not_ws_of_marker hm)
    | cons c cs =>
      exact ltrim_cons_of_not_ws _ (not_ws_of_digit (hpre c (by simp)))
  rw [hltrim]
  unfold rtrim
  rw [List.reverse_append, List.reverse_cons]
  cases hrev : rest.reverse with
  | nil =>
    simp only [List.nil_append, List.singleton_append]
    rw [ltrim_cons_of_not_ws _ (not_ws_of_marker hm)]
    simp
    exact List.reverse_eq_nil_iff.mp hrev
  | cons d ds =>
    have hrrev : ltrim rest.reverse = rest.reverse := by
      have := congrArg List.reverse hr
      unfold rtrim at this
      simpa using this
    rw [List.append_assoc, List.singleton_append]
    rw [ltrim_append_eq_self _ (hrev ▸ hrrev) (by simp [hrev])]
    have := congrArg List.reverse hrev
    simp at this
    simp [this]

theorem decSignSplit_digits_marker (pre l : List Char) {m : Char}
    (hm : isExpMarker m)
    (hpre : ∀ c ∈ pre, 48 ≤ c.toNat ∧ c.toNat ≤ 57) :
    decSignSplit (pre ++ m :: l) = (false, pre ++ m :: l) := by
  cases pre with
  | nil =>
    simp only [List.nil_append, decSignSplit]
    rw [if_neg (by rcases hm with h | h <;> omega),
      if_neg (by rcases hm with h | h <;> omega)]
  | cons c cs =>
    have := hpre c (by simp)
    simp only [List.cons_append, decSignSplit]
    rw [if_neg (by omega), if_neg (by omega)]

theorem spanZeros_digits_marker (l : List Char) {m : Char} (hm : isExpMarker m) :
    ∀ pre : List Char, (∀ c ∈ pre, 48 ≤ c.toNat ∧ c.toNat ≤ 57) →
    ∃ pre1, (∀ c ∈ pre1, 48 ≤ c.toNat ∧ c.toNat ≤ 57) ∧
      (spanZeros (pre ++ m :: l)).2 = pre1 ++ m :: l := by
  intro pre
  induction pre with
  | nil =>
    intro _
    refine ⟨[], by simp, ?_⟩
    simp only [List.nil_append, spanZeros]
    rw [if_neg (by rcases hm with h | h <;> omega)]
  | cons c cs ih =>
    intro hpre
    by_cases h48 : c.toNat = 48
    · obtain ⟨pre1, h1, h2⟩ := ih (fun d hd => hpre d (by simp [hd]))
      exact ⟨pre1, h1, by simp only [List.cons_append, spanZeros, if_pos h48]; exact h2⟩
    · exact ⟨c :: cs, hpre, by simp only [List.cons_append, spanZeros, if_neg h48,
        List.append_eq]⟩

theorem decDotPhase_digits_marker (fv : Bool) (pre l : List Char) {m : Char}
    (hm : isExpMarker m)
    (hpre : ∀ c ∈ pre, 48 ≤ c.toNat ∧ c.toNat ≤ 57) :
    decDotPhase fv (pre ++ m :: l) = (⟨fv, false, 0, 0, 0, 0⟩, pre ++ m :: l) := by
  cases pre with
  | nil =>
    simp only [List.nil_append, decDotPhase]
    rw [if_neg (by rcases hm with h | h <;> omega)]
  | cons c cs =>
    have := hpre c (by simp)
    simp only [List.cons_append, decDotPhase]
    rw [if_neg (by omega)]

theorem decPrep_digits_marker (pre rest : List Char) {m : Char}
    (hm : isExpMarker m)
    (hpre : ∀ c ∈ pre, 48 ≤ c.toNat ∧ c.toNat ≤ 57)
    (hr : rtrim rest = rest) :
    ∃ pre1, (∀ c ∈ pre1, 48 ≤ c.toNat ∧ c.toNat ≤ 57) ∧
      (decPrep (pre ++ m :: rest)).rest = pre1 ++ m :: rest := by
  simp only [decPrep]
  rw [rtrim_digits_marker_append pre rest hm hpre hr,
    decSignSplit_digits_marker pre rest hm hpre]
  obtain ⟨pre1, h1, h2⟩ := spanZeros_digits_marker rest hm pre hpre
  refine ⟨pre1, h1, ?_⟩
  simp only [h2, decDotPhase_digits_marker _ pre1 rest hm h1]

theorem decScanLoop_digits_marker (p : Nat) (r : Bool) (rest : List Char)
    {m : Char} (hm : isExpMarker m)
    (hns : (stringToIntInternal 8 rest).1 ≠ ParseResult.Success) :
    ∀ (ds : List Char) (st : ScanState),
    (∀ c ∈ ds, 48 ≤ c.toNat ∧ c.toNat ≤ 57) →
    decScanLoop p r st (ds ++ m :: rest) =
      .inl (if (stringToIntInternal 8 rest).1 = ParseResult.Overflow ∧
              (stringToIntInternal 8 rest).2 < 0
        then (ParseResult.Underflow, 0) else ((stringToIntInternal 8 rest).1, 0)) := by
  intro ds
  induction ds with
  | nil =>
    intro st _
    simp only [List.nil_append, decScanLoop]
    rw [if_neg (by rcases hm with h | h <;> omega :
      ¬(48 ≤ m.toNat ∧ m.toNat ≤ 57))]
    rw [if_neg (fun h => absurd h.1 (by rcases hm with h | h <;> omega :
      ¬m.toNat = 46))]
    have hm2 : m.toNat = 101 ∨ m.toNat = 69 := hm
    rw [if_pos hm2]
    rw [if_neg hns]
  | cons c cs ih =>
    intro st hds
    have hc := hds c (by simp)
    simp only [List.cons_append, decScanLoop]
    rw [if_pos hc]
    exact ih _ (fun d hd => hds d (by simp [hd]))

/-- C5: for every input of the form `pre ++ marker :: rest` in which the scan
reaches the exponent marker (`pre` consists of decimal digits, possibly none,
and the marker is `'e'` or `'E'`) and the exponent substring `rest` (already
free of trailing whitespace, which the decimal parser trims away up front)
does not parse as an 8-bit signed integer with `Success`, the exponent-parse
status propagates as the overall result of `parse_decimal` (with returned
value 0), except that an exponent-parse `Overflow` whose clamped exponent is
negative is reinterpreted as decimal `Underflow`. -/
theorem parse_decimal_exponent_status_propagation
    (pre rest : List Char) (m : Char) (p sc : Nat) (r : Bool)
    (hm : isExpMarker m)
    (hpre : ∀ c ∈ pre, 48 ≤ c.toNat ∧ c.toNat ≤ 57)
    (hr : rtrim rest = rest)
    (hns : (stringToIntInternal 8 rest).1 ≠ ParseResult.Success) :
    stringToDecimal (pre ++ m :: rest) p sc r =
      (if (stringToIntInternal 8 rest).1 = ParseResult.Overflow ∧
          (stringToIntInternal 8 rest).2 < 0
       then (ParseResult.Underflow, 0)
       else ((stringToIntInternal 8 rest).1, 0)) := by
  obtain ⟨pre1, h1, h2⟩ := decPrep_digits_marker pre rest hm hpre hr
  unfold stringToDecimal
  rw [h2, decScanLoop_digits_marker p r rest hm hns pre1 _ h1]

/-- C5 witness: "1e-9999" — the exponent substring "-9999" overflows the
8-bit exponent with a negative clamp (-128), so the decimal result is
`Underflow`; instantiated via `pre = "1"`, `rest = "-9999"`. -/
theorem parse_decimal_exponent_status_propagation_witness :
    stringToDecimal (chars "1" ++ Char.ofNat 101 :: chars "-9999") 5 2 true =
      (.Underflow, 0) := by
  have h := parse_decimal_exponent_status_propagation (chars "1") (chars "-9999")
    (Char.ofNat 101) 5 2 true (Or.inl rfl) (by decide) (by decide) (by decide)
  exact h.trans (by decide)


theorem char_toNat_ofNat_small {m : Nat} (h : m < 1000) : (Char.ofNat m).toNat = m := by
  have hv : m.isValidChar := Or.inl (by omega)
  simp [Char.ofNat, hv, Char.toNat, Char.ofNatAux, UInt32.toNat, BitVec.toNat_ofNatLt]

theorem natDigitsAux_congr : ∀ (n f1 f2 : Nat), n < f1 → n < f2 →
    natDigitsAux f1 n = natDigitsAux f2 n := by
  intro n
  induction n using Nat.strong_induction_on with
  | _ n ih =>
    intro f1 f2 h1 h2
    cases f1 with
    | zero => omega
    | succ g1 =>
      cases f2 with
      | zero => omega
      | succ g2 =>
        simp only [natDigitsAux]
        by_cases h : n < 10
        · simp [h]
        · rw [if_neg h, if_neg h]
          have hdiv : n / 10 < n := Nat.div_lt_self (by omega) (by omega)
          rw [ih (n / 10) hdiv g1 (n / 10 + 1) (by omega) (by omega),
            ih (n / 10) hdiv g2 (n / 10 + 1) (by omega) (by omega)]

theorem natDigits_unfold (n : Nat) : natDigits n =
    if n < 10 then [Char.ofNat (48 + n)]
    else natDigits (n / 10) ++ [Char.ofNat (48 + n % 10)] := by
  show natDigitsAux (n + 1) n = _
  rw [show natDigitsAux (n + 1) n =
    (if n < 10 then [Char.ofNat (48 + n)]
     else natDigitsAux n (n / 10) ++ [Char.ofNat (48 + n % 10)]) from rfl]
  by_cases h : n < 10
  · simp [h]
  · rw [if_neg h, if_neg h]
    have hdiv : n / 10 < n := Nat.div_lt_self (by omega) (by omega)
    rw [natDigitsAux_congr (n / 10) n (n / 10 + 1) (by omega) (by omega)]
    rfl

theorem natDigits_ne_nil (n : Nat) : natDigits n ≠ [] := by
  rw [natDigits_unfold]
  by_cases h : n < 10 <;> simp [h]

theorem natDigits_all_digits : ∀ n : Nat, ∀ c ∈ natDigits n,
    48 ≤ c.toNat ∧ c.toNat ≤ 57 := by
  intro n
  induction n using Nat.strong_induction_on with
  | _ n ih =>
    intro c hc
    rw [natDigits_unfold] at hc
    by_cases h : n < 10
    · rw [if_pos h] at hc
      simp at hc
      subst hc
      rw [char_toNat_ofNat_small (by omega)]
      omega
    · rw [if_neg h] at hc
      rcases List.mem_append.mp hc with h1 | h1
      · exact ih (n / 10) (Nat.div_lt_self (by omega) (by omega)) c h1
      · simp at h1
        subst h1
        rw [char_toNat_ofNat_small (by omega)]
        have := Nat.mod_lt n (y := 10) (by omega)
        omega

theorem digitsVal_shift : ∀ (ds : List Char) (a : Nat),
    List.foldl (fun a c => a * 10 + (c.toNat - 48)) a ds =
      a * 10 ^ ds.length + digitsVal ds := by
  intro ds
  induction ds with
  | nil => intro a; simp [digitsVal]
  | cons c cs ih =>
    intro a
    simp only [List.foldl_cons, digitsVal, List.length_cons]
    rw [ih (a * 10 + (c.toNat - 48)), show List.foldl (fun a c => a * 10 + (c.toNat - 48))
      (0 * 10 + (c.toNat - 48)) cs = (c.toNat - 48) * 10 ^ cs.length + digitsVal cs by
        rw [ih]; ring_nf]
    ring

theorem digitsVal_natDigits : ∀ n : Nat, digitsVal (natDigits n) = n := by
  intro n
  induction n using Nat.strong_induction_on with
  | _ n ih =>
    rw [natDigits_unfold]
    by_cases h : n < 10
    · rw [if_pos h]
      simp [digitsVal, char_toNat_ofNat_small (by omega : 48 + n < 1000)]
    · rw [if_neg h]
      simp only [digitsVal, List.foldl_append, List.foldl_cons, List.foldl_nil]
      have h1 : List.foldl (fun a c => a * 10 + (c.toNat - 48)) 0 (natDigits (n / 10))
          = n / 10 := ih (n / 10) (Nat.div_lt_self (by omega) (by omega))
      rw [h1, char_toNat_ofNat_small (by
        have := Nat.mod_lt n (y := 10) (by omega); omega)]
      have := Nat.mod_lt n (y := 10) (by omega)
      omega

theorem natDigits_length_le : ∀ (n k : Nat), n < 10 ^ k → 1 ≤ k →
    (natDigits n).length ≤ k := by
  intro n
  induction n using Nat.strong_induction_on with
  | _ n ih =>
    intro k hn hk
    rw [natDigits_unfold]
    by_cases h : n < 10
    · simp [h]; omega
    · rw [if_neg h]
      simp only [List.length_append, List.length_cons, List.length_nil]
      have hk2 : 2 ≤ k := by
        by_contra hc
        have : k = 1 := by omega
        subst this
        simp at hn
        omega
      have hdivlt : n / 10 < 10 ^ (k - 1) := by
        rw [Nat.div_lt_iff_lt_mul (by omega)]
        calc n < 10 ^ k := hn
        _ = 10 ^ (k - 1) * 10 := by
          rw [← Nat.pow_succ]
          congr 1
          omega
      have := ih (n / 10) (Nat.div_lt_self (by omega) (by omega)) (k - 1) hdivlt (by omega)
      omega

theorem spanZeros_natDigits_append : ∀ (n : Nat), 0 < n → ∀ (rest : List Char),
    spanZeros (natDigits n ++ rest) = (0, natDigits n ++ rest) := by
  intro n
  induction n using Nat.strong_induction_on with
  | _ n ih =>
    intro hn rest
    rw [natDigits_unfold]
    by_cases h : n < 10
    · rw [if_pos h]
      simp only [List.cons_append, List.nil_append, spanZeros]
      rw [if_neg (by rw [char_toNat_ofNat_small (by omega)]; omega)]
      simp
    · rw [if_neg h]
      rw [List.append_assoc]
      exact ih (n / 10) (Nat.div_lt_self (by omega) (by omega)) (by
        have : 10 ≤ n := by omega
        exact Nat.div_pos this (by omega)) _

theorem spanZeros_replicate_append : ∀ (j : Nat) (l : List Char),
    spanZeros (List.replicate j (Char.ofNat 48) ++ l) =
      ((spanZeros l).1 + j, (spanZeros l).2) := by
  intro j
  induction j with
  | zero => intro l; simp
  | succ k ih =>
    intro l
    rw [List.replicate_succ, List.cons_append]
    simp only [spanZeros]
    rw [if_pos (char_toNat_ofNat_small (by omega))]
    rw [ih l]
    simp
    omega

theorem digitsVal_replicate_append : ∀ (j : Nat) (l : List Char),
    digitsVal (List.replicate j (Char.ofNat 48) ++ l) = digitsVal l := by
  intro j
  induction j with
  | zero => intro l; simp
  | succ k ih =>
    intro l
    rw [List.replicate_succ, List.cons_append]
    simp only [digitsVal, List.foldl_cons]
    rw [char_toNat_ofNat_small (by omega)]
    simpa [digitsVal] using ih l

theorem natPad_zero_eq (sc : Nat) (h : 1 ≤ sc) :
    natPad 0 sc = List.replicate sc (Char.ofNat 48) := by
  have h0 : natDigits 0 = [Char.ofNat 48] := rfl
  rw [natPad, h0]
  simp only [List.length_cons, List.length_nil]
  rw [← List.replicate_succ' (n := sc - 1)]
  congr 1
  omega

theorem natPad_length (n sc : Nat) (h : (natDigits n).length ≤ sc) :
    (natPad n sc).length = sc := by
  simp [natPad]
  omega

theorem natPad_all_digits (n sc : Nat) : ∀ c ∈ natPad n sc,
    48 ≤ c.toNat ∧ c.toNat ≤ 57 := by
  intro c hc
  rcases List.mem_append.mp hc with h1 | h1
  · have := List.eq_of_mem_replicate h1
    subst this
    rw [char_toNat_ofNat_small (by omega)]
    omega
  · exact natDigits_all_digits n c h1

theorem digitsVal_natPad (n sc : Nat) : digitsVal (natPad n sc) = n := by
  rw [natPad, digitsVal_replicate_append, digitsVal_natDigits]

theorem ltrim_eq_self_of_all {l : List Char}
    (h : ∀ c ∈ l, isWhitespace c = false) : ltrim l = l := by
  cases l with
  | nil => rfl
  | cons c cs => exact ltrim_cons_of_not_ws _ (h c (by simp))

theorem rtrim_eq_self_of_all {l : List Char}
    (h : ∀ c ∈ l, isWhitespace c = false) : rtrim l = l := by
  unfold rtrim
  rw [ltrim_eq_self_of_all (fun c hc => h c (List.mem_reverse.mp hc))]
  simp


theorem decScanLoop_inl_ne_success : ∀ (l : List Char) (p : Nat) (r : Bool)
    (st : ScanState) (res : ParseResult × Int),
    decScanLoop p r st l = .inl res → res.1 ≠ .Success := by
  intro l
  induction l with
  | nil => intro p r st res h; simp [decScanLoop] at h
  | cons c cs ih =>
    intro p r st res h
    simp only [decScanLoop] at h
    split at h
    · exact ih p r _ res h
    · split at h
      · exact ih p r _ res h
      · split at h
        · split at h
          · simp at h
          · rename_i hns
            simp only [Sum.inl.injEq] at h
            subst h
            split
            · simp
            · simpa using hns
        · simp only [Sum.inl.injEq] at h
          subst h
          simp

theorem decScanLoop_inr_value_lt : ∀ (l : List Char) (p : Nat) (r : Bool)
    (st st2 : ScanState) (e : Int),
    decScanLoop p r st l = .inr (st2, e) → st.value < 10 ^ (min st.tdc p) →
    st2.value < 10 ^ (min st2.tdc p) := by
  intro l
  induction l with
  | nil =>
    intro p r st st2 e h hv
    simp only [decScanLoop, Sum.inr.injEq, Prod.mk.injEq] at h
    rw [← h.1]
    exact hv
  | cons c cs ih =>
    intro p r st st2 e h hv
    simp only [decScanLoop] at h
    split at h
    · rename_i hc
      refine ih p r _ st2 e h ?_
      simp only [digitStep]
      by_cases hlt : st.tdc < p
      · rw [if_pos hlt]
        have h1 : min st.tdc p = st.tdc := by omega
        have h2 : min (st.tdc + 1) p = st.tdc + 1 := by omega
        rw [h1] at hv
        rw [h2]
        have : c.toNat - 48 ≤ 9 := by omega
        calc st.value * 10 + (c.toNat - 48) ≤ st.value * 10 + 9 := by omega
        _ < 10 ^ st.tdc * 10 := by omega
        _ = 10 ^ (st.tdc + 1) := by rw [Nat.pow_succ]
      · rw [if_neg hlt]
        have h1 : min st.tdc p = p := by omega
        have h2 : min (st.tdc + 1) p = p := by omega
        rw [h1] at hv
        rw [h2]
        exact hv
    · split at h
      · exact ih p r _ st2 e h hv
      · split at h
        · split at h
          · simp only [Sum.inr.injEq, Prod.mk.injEq] at h
            rw [← h.1]
            exact hv
          · simp at h
        · simp at h

theorem decScanLoop_digits_append (p : Nat) (r : Bool) (rest : List Char) :
    ∀ (ds : List Char) (st : ScanState),
    (∀ c ∈ ds, 48 ≤ c.toNat ∧ c.toNat ≤ 57) →
    st.tdc + ds.length ≤ p →
    decScanLoop p r st (ds ++ rest) =
      decScanLoop p r
        ⟨st.foundValue || !ds.isEmpty, st.foundDot,
         st.dadc + (if st.foundDot = true then ds.length else 0),
         st.tdc + ds.length, st.firstTrunc,
         st.value * 10 ^ ds.length + digitsVal ds⟩ rest := by
  intro ds
  induction ds with
  | nil =>
    intro st _ _
    simp [digitsVal]
  | cons c cs ih =>
    intro st hds hlen
    have hc := hds c (by simp)
    have hlt : st.tdc < p := by simp at hlen; omega
    rw [List.cons_append]
    simp only [decScanLoop]
    rw [if_pos hc]
    rw [ih (digitStep p r st c) (fun d hd => hds d (by simp [hd]))
      (by simp [digitStep]; simp at hlen; omega)]
    congr 1
    simp only [digitStep, if_pos hlt]
    have hdv : digitsVal (c :: cs) = (c.toNat - 48) * 10 ^ cs.length + digitsVal cs := by
      have h1 : digitsVal (c :: cs) =
          List.foldl (fun a c => a * 10 + (c.toNat - 48)) (c.toNat - 48) cs := by
        simp [digitsVal]
      rw [h1, digitsVal_shift]
    simp only [ScanState.mk.injEq]
    refine ⟨by simp, trivial, ?_, by simp [List.length_cons]; omega, trivial, ?_⟩
    · by_cases hfd : st.foundDot = true <;> simp [hfd, List.length_cons] <;> omega
    · simp only [List.length_cons, hdv]
      ring

theorem decScanLoop_dot (p : Nat) (r : Bool) (st : ScanState) (l : List Char)
    (hfd : st.foundDot = false) :
    decScanLoop p r st (Char.ofNat 46 :: l) =
      decScanLoop p r { st with foundDot := true } l := by
  simp only [decScanLoop]
  rw [if_neg (by decide : ¬(48 ≤ (Char.ofNat 46).toNat ∧ (Char.ofNat 46).toNat ≤ 57))]
  rw [if_pos ⟨by decide, hfd⟩]


theorem decDotPhase_init (fv : Bool) (l : List Char) :
    (decDotPhase fv l).1.value = 0 ∧ (decDotPhase fv l).1.tdc = 0 := by
  cases l with
  | nil => simp [decDotPhase]
  | cons c cs =>
    simp only [decDotPhase]
    split <;> simp

theorem decPrep_init (s : List Char) :
    (decPrep s).init.value = 0 ∧ (decPrep s).init.tdc = 0 := by
  simp only [decPrep]
  exact decDotPhase_init _ _

theorem applySign_natAbs (b : Bool) (n : Nat) : (applySign b n).natAbs = n := by
  cases b <;> simp [applySign]

theorem applyExponent_facts (p tdc dadc : Nat) (e : Int) (value : Nat)
    (hv : value < 10 ^ (min tdc p)) :
    0 ≤ (applyExponent tdc dadc e value).scale ∧
    (applyExponent tdc dadc e value).scale ≤ (applyExponent tdc dadc e value).precision ∧
    (applyExponent tdc dadc e value).value <
      10 ^ (applyExponent tdc dadc e value).precision.toNat := by
  have hvt : value < 10 ^ tdc :=
    lt_of_lt_of_le hv (Nat.pow_le_pow_right (by omega) (by omega))
  simp only [applyExponent]
  split
  · rename_i hlt
    dsimp only
    refine ⟨le_refl 0, by omega, ?_⟩
    set k := (e - (dadc : Int)).toNat with hk
    have hkk : ((tdc : Int) + (e - (dadc : Int))).toNat = tdc + k := by omega
    rw [hkk, getScaleMultiplier]
    calc value * 10 ^ k < 10 ^ tdc * 10 ^ k :=
      (Nat.mul_lt_mul_right (Nat.pos_pow_of_pos k (by omega))).mpr hvt
    _ = 10 ^ (tdc + k) := (pow_add 10 tdc k).symm
  · rename_i hge
    dsimp only
    refine ⟨by omega, by split <;> omega, ?_⟩
    refine lt_of_lt_of_le hvt (Nat.pow_le_pow_right (by omega) ?_)
    split
    · rename_i hc
      omega
    · omega

theorem stringToDecimal_success_bound (s : List Char) (p sc : Nat) (r : Bool)
    (v : Int) (h : stringToDecimal s p sc r = (.Success, v)) :
    v.natAbs < 10 ^ p ∧ sc ≤ p := by
  unfold stringToDecimal at h
  cases hscan : decScanLoop p r (decPrep s).init (decPrep s).rest with
  | inl res =>
    rw [hscan] at h
    dsimp only at h
    have hne := decScanLoop_inl_ne_success _ p r _ res hscan
    rw [h] at hne
    simp at hne
  | inr pr =>
    obtain ⟨st, e⟩ := pr
    rw [hscan] at h
    dsimp only at h
    have hinit : (decPrep s).init.value < 10 ^ (min (decPrep s).init.tdc p) := by
      rw [(decPrep_init s).1]
      exact Nat.pos_pow_of_pos _ (by omega)
    have hv := decScanLoop_inr_value_lt _ p r _ st e hscan hinit
    obtain ⟨hs0, hsp, hvb⟩ := applyExponent_facts p st.tdc st.dadc e st.value hv
    set ae := applyExponent st.tdc st.dadc e st.value with hae
    simp only [decClassify] at h
    split at h
    · simp at h
    · rename_i hc1
      split at h
      · split at h
        · simp at h
        · split at h <;> simp at h <;>
            (obtain ⟨h1, -⟩ := h; split at h1 <;> simp at h1)
      · rename_i hc2
        split at h
        · simp at h
        · split at h
          · rename_i hc4
            -- v = applySign neg (ae.value * 10^(sc - ae.scale).toNat)
            have hv2 : v = applySign (decPrep s).negative
                (ae.value * getScaleMultiplier ((sc : Int) - ae.scale).toNat) := by
              have := h
              simp only [Prod.mk.injEq] at this
              exact this.2.symm
            rw [hv2, applySign_natAbs]
            have hP : ((ae.precision.toNat : Int)) = ae.precision :=
              Int.toNat_of_nonneg (by omega)
            have hexp : ae.precision.toNat + ((sc : Int) - ae.scale).toNat ≤ p := by
              omega
            constructor
            · rw [getScaleMultiplier]
              calc ae.value * 10 ^ ((sc : Int) - ae.scale).toNat
                  < 10 ^ ae.precision.toNat * 10 ^ ((sc : Int) - ae.scale).toNat :=
                (Nat.mul_lt_mul_right (Nat.pos_pow_of_pos _ (by omega))).mpr hvb
              _ = 10 ^ (ae.precision.toNat + ((sc : Int) - ae.scale).toNat) :=
                (pow_add 10 _ _).symm
              _ ≤ 10 ^ p := Nat.pow_le_pow_right (by omega) hexp
            · omega
          · rename_i hc4
            have hv2 : v = applySign (decPrep s).negative ae.value := by
              simp only [Prod.mk.injEq] at h
              exact h.2.symm
            rw [hv2, applySign_natAbs]
            have hP : ((ae.precision.toNat : Int)) = ae.precision :=
              Int.toNat_of_nonneg (by omega)
            constructor
            · refine lt_of_lt_of_le hvb (Nat.pow_le_pow_right (by omega) ?_)
              omega
            · omega


theorem renderNat_not_ws (m sc : Nat) : ∀ c ∈ renderNat m sc,
    isWhitespace c = false := by
  intro c hc
  unfold renderNat at hc
  rcases List.mem_append.mp hc with h1 | h1
  · exact not_ws_of_digit (natDigits_all_digits _ c h1)
  · by_cases hsc : sc = 0
    · rw [if_pos hsc] at h1; simp at h1
    · rw [if_neg hsc] at h1
      rcases List.mem_cons.mp h1 with h2 | h2
      · subst h2; decide
      · exact not_ws_of_digit (natPad_all_digits _ _ c h2)

theorem render_trim (neg : Bool) (m sc : Nat) :
    rtrim (ltrim ((if neg then [Char.ofNat 45] else []) ++ renderNat m sc)) =
      (if neg then [Char.ofNat 45] else []) ++ renderNat m sc := by
  have hall : ∀ c ∈ (if neg then [Char.ofNat 45] else []) ++ renderNat m sc,
      isWhitespace c = false := by
    intro c hc
    rcases List.mem_append.mp hc with h1 | h1
    · cases neg with
      | false => simp at h1
      | true => simp at h1; subst h1; decide
    · exact renderNat_not_ws m sc c h1
  rw [ltrim_eq_self_of_all hall, rtrim_eq_self_of_all hall]

theorem decSignSplit_render (neg : Bool) (m sc : Nat) :
    decSignSplit ((if neg then [Char.ofNat 45] else []) ++ renderNat m sc) =
      (neg, renderNat m sc) := by
  cases neg with
  | true =>
    have h1 : (if (true : Bool) then [Char.ofNat 45] else []) = [Char.ofNat 45] := rfl
    rw [h1, List.singleton_append]
    simp only [decSignSplit]
    rw [if_pos (by decide : (Char.ofNat 45).toNat = 45)]
  | false =>
    have h1 : (if (false : Bool) then [Char.ofNat 45] else []) = ([] : List Char) := rfl
    rw [h1, List.nil_append]
    unfold renderNat
    cases hnd : natDigits (m / 10 ^ sc) with
    | nil => exact absurd hnd (natDigits_ne_nil _)
    | cons c cs =>
      have hdig : 48 ≤ c.toNat ∧ c.toNat ≤ 57 :=
        natDigits_all_digits _ c (by rw [hnd]; simp)
      simp only [List.cons_append, decSignSplit]
      rw [if_neg (by omega), if_neg (by omega)]

theorem decDotPhase_not_dot (fv : Bool) (c : Char) (cs : List Char)
    (h : c.toNat ≠ 46) :
    decDotPhase fv (c :: cs) = (⟨fv, false, 0, 0, 0, 0⟩, c :: cs) := by
  simp only [decDotPhase]
  rw [if_neg h]

theorem decPrep_render_qpos (neg : Bool) (m sc : Nat) (hq : 0 < m / 10 ^ sc) :
    decPrep ((if neg then [Char.ofNat 45] else []) ++ renderNat m sc) =
      ⟨neg, ⟨false, false, 0, 0, 0, 0⟩, renderNat m sc⟩ := by
  simp only [decPrep]
  rw [render_trim, decSignSplit_render]
  have hspan : spanZeros (renderNat m sc) = (0, renderNat m sc) := by
    unfold renderNat
    exact spanZeros_natDigits_append _ hq _
  rw [hspan]
  have hdot : decDotPhase (decide (0 < (0, renderNat m sc).1)) (0, renderNat m sc).2
      = (⟨false, false, 0, 0, 0, 0⟩, renderNat m sc) := by
    simp only
    unfold renderNat
    cases hnd : natDigits (m / 10 ^ sc) with
    | nil => exact absurd hnd (natDigits_ne_nil _)
    | cons c cs =>
      have hdig : 48 ≤ c.toNat ∧ c.toNat ≤ 57 :=
        natDigits_all_digits _ c (by rw [hnd]; simp)
      rw [List.cons_append]
      rw [decDotPhase_not_dot _ _ _ (by omega)]
      simp
  rw [hdot]

theorem decPrep_render_zero_sczero (neg : Bool) :
    decPrep ((if neg then [Char.ofNat 45] else []) ++ renderNat 0 0) =
      ⟨neg, ⟨true, false, 0, 0, 0, 0⟩, []⟩ := by
  simp only [decPrep]
  rw [render_trim, decSignSplit_render]
  have h1 : renderNat 0 0 = [Char.ofNat 48] := rfl
  rw [h1]
  have hspan : spanZeros [Char.ofNat 48] = (1, []) := by decide
  rw [hspan]
  rfl

theorem decPrep_render_zero_scpos (neg : Bool) (sc : Nat) (hsc : 1 ≤ sc) :
    decPrep ((if neg then [Char.ofNat 45] else []) ++ renderNat 0 sc) =
      ⟨neg, ⟨true, true, sc, 0, 0, 0⟩, []⟩ := by
  simp only [decPrep]
  rw [render_trim, decSignSplit_render]
  have h1 : renderNat 0 sc =
      Char.ofNat 48 :: Char.ofNat 46 :: List.replicate sc (Char.ofNat 48) := by
    unfold renderNat
    rw [if_neg (by omega), Nat.zero_div, Nat.zero_mod, natPad_zero_eq sc hsc]
    rfl
  rw [h1]
  have hspan : spanZeros
      (Char.ofNat 48 :: Char.ofNat 46 :: List.replicate sc (Char.ofNat 48)) =
      (1, Char.ofNat 46 :: List.replicate sc (Char.ofNat 48)) := by
    simp only [spanZeros]
    rw [if_pos (by decide : (Char.ofNat 48).toNat = 48),
      if_neg (by decide : ¬(Char.ofNat 46).toNat = 48)]
  rw [hspan]
  simp only [decDotPhase]
  rw [if_pos (by decide : (Char.ofNat 46).toNat = 46)]
  have hsp2 : spanZeros (List.replicate sc (Char.ofNat 48)) = (sc, []) := by
    have := spanZeros_replicate_append sc []
    simpa [spanZeros] using this
  rw [hsp2]
  simp

theorem decPrep_render_rem_pos (neg : Bool) (m sc : Nat) (hsc : 1 ≤ sc)
    (hq : m / 10 ^ sc = 0) (hm : 0 < m) :
    decPrep ((if neg then [Char.ofNat 45] else []) ++ renderNat m sc) =
      ⟨neg, ⟨true, true, sc - (natDigits (m % 10 ^ sc)).length, 0, 0, 0⟩,
        natDigits (m % 10 ^ sc)⟩ := by
  simp only [decPrep]
  rw [render_trim, decSignSplit_render]
  have hrem : m % 10 ^ sc = m := by
    have hdm := Nat.div_add_mod m (10 ^ sc)
    rw [hq, Nat.mul_zero, Nat.zero_add] at hdm
    exact hdm
  have h1 : renderNat m sc =
      Char.ofNat 48 :: Char.ofNat 46 :: natPad (m % 10 ^ sc) sc := by
    unfold renderNat
    rw [if_neg (by omega), hq]
    rfl
  rw [h1]
  have hspan : spanZeros
      (Char.ofNat 48 :: Char.ofNat 46 :: natPad (m % 10 ^ sc) sc) =
      (1, Char.ofNat 46 :: natPad (m % 10 ^ sc) sc) := by
    simp only [spanZeros]
    rw [if_pos (by decide : (Char.ofNat 48).toNat = 48),
      if_neg (by decide : ¬(Char.ofNat 46).toNat = 48)]
  rw [hspan]
  simp only [decDotPhase]
  rw [if_pos (by decide : (Char.ofNat 46).toNat = 46)]
  have hsp2 : spanZeros (natPad (m % 10 ^ sc) sc) =
      (sc - (natDigits (m % 10 ^ sc)).length, natDigits (m % 10 ^ sc)) := by
    rw [natPad, spanZeros_replicate_append]
    have h3 : spanZeros (natDigits (m % 10 ^ sc)) = (0, natDigits (m % 10 ^ sc)) := by
      have := spanZeros_natDigits_append (m % 10 ^ sc) (by omega) []
      simpa using this
    rw [h3]
    simp
  rw [hsp2]
  simp

theorem natDigits_isEmpty (n : Nat) : (natDigits n).isEmpty = false := by
  cases hnd : natDigits n with
  | nil => exact absurd hnd (natDigits_ne_nil n)
  | cons c cs => rfl

theorem decClassify_success (p sc : Nat) (r neg : Bool) (st : ScanState)
    (ae : AEOut) (hfv : st.foundValue = true)
    (hprec : ae.precision - ae.scale ≤ (p : Int) - (sc : Int))
    (hscale : ae.scale = (sc : Int)) :
    decClassify p sc r neg st ae = (.Success, applySign neg ae.value) := by
  simp only [decClassify]
  rw [if_neg (by omega), if_neg (by omega), if_neg (by simp [hfv]),
    if_neg (by omega)]

theorem one_le_p_of_pos_lt {m p : Nat} (hm : 0 < m) (h : m < 10 ^ p) : 1 ≤ p := by
  by_contra hc
  have : p = 0 := by omega
  subst this
  simp at h
  omega

theorem renderNat_parse_qpos_sczero (p : Nat) (r neg : Bool) (m : Nat)
    (hm : m < 10 ^ p) (hq : 0 < m) :
    stringToDecimal ((if neg then [Char.ofNat 45] else []) ++ renderNat m 0)
      p 0 r = (.Success, applySign neg m) := by
  have hq0 : m / 10 ^ 0 = m := by simp
  have hlen : (natDigits m).length ≤ p :=
    natDigits_length_le m p hm (one_le_p_of_pos_lt hq hm)
  unfold stringToDecimal
  rw [decPrep_render_qpos neg m 0 (by simpa [hq0] using hq)]
  dsimp only
  have hrest : renderNat m 0 = natDigits m ++ [] := by
    unfold renderNat
    rw [if_pos rfl, hq0]
  rw [hrest]
  rw [decScanLoop_digits_append p r [] (natDigits m) _
    (natDigits_all_digits m) (by simpa using hlen)]
  have hrec : (⟨false || !(natDigits m).isEmpty, false,
      0 + (if (false : Bool) = true then (natDigits m).length else 0),
      0 + (natDigits m).length, 0,
      0 * 10 ^ (natDigits m).length + digitsVal (natDigits m)⟩ : ScanState) =
      ⟨true, false, 0, (natDigits m).length, 0, m⟩ := by
    simp [natDigits_isEmpty, digitsVal_natDigits]
  rw [hrec]
  dsimp only [decScanLoop]
  have hae : applyExponent (natDigits m).length 0 0 m =
      ⟨m, ((natDigits m).length : Int), 0⟩ := by
    simp only [applyExponent]
    rw [if_neg (by omega)]
    simp only [AEOut.mk.injEq]
    refine ⟨trivial, ?_, by omega⟩
    rw [if_neg (by omega)]
  rw [hae]
  rw [decClassify_success p 0 r neg _ _ rfl (by simp; omega) (by simp)]

theorem renderNat_parse_qpos_scpos (p sc : Nat) (r neg : Bool) (m : Nat)
    (hm : m < 10 ^ p) (hsc : 1 ≤ sc) (hscp : sc ≤ p) (hq : 0 < m / 10 ^ sc) :
    stringToDecimal ((if neg then [Char.ofNat 45] else []) ++ renderNat m sc)
      p sc r = (.Success, applySign neg m) := by
  have hqlt : m / 10 ^ sc < 10 ^ (p - sc) := by
    rw [Nat.div_lt_iff_lt_mul (Nat.pos_pow_of_pos sc (by omega))]
    calc m < 10 ^ p := hm
    _ = 10 ^ (p - sc) * 10 ^ sc := by
      rw [← pow_add]
      congr 1
      omega
  have hlenq : (natDigits (m / 10 ^ sc)).length ≤ p - sc :=
    natDigits_length_le _ _ hqlt (one_le_p_of_pos_lt hq hqlt)
  have hremlt : m % 10 ^ sc < 10 ^ sc :=
    Nat.mod_lt m (Nat.pos_pow_of_pos sc (by omega))
  have hlenr : (natDigits (m % 10 ^ sc)).length ≤ sc :=
    natDigits_length_le _ _ hremlt hsc
  have hpadlen : (natPad (m % 10 ^ sc) sc).length = sc := natPad_length _ _ hlenr
  have hval : m / 10 ^ sc * 10 ^ sc + m % 10 ^ sc = m := by
    rw [Nat.mul_comm]
    exact Nat.div_add_mod m (10 ^ sc)
  unfold stringToDecimal
  rw [decPrep_render_qpos neg m sc hq]
  dsimp only
  have hrest : renderNat m sc = natDigits (m / 10 ^ sc) ++
      (Char.ofNat 46 :: natPad (m % 10 ^ sc) sc) := by
    unfold renderNat
    rw [if_neg (by omega)]
  rw [hrest]
  rw [decScanLoop_digits_append p r _ (natDigits (m / 10 ^ sc)) _
    (natDigits_all_digits _) (by simp; omega)]
  have hrec1 : (⟨false || !(natDigits (m / 10 ^ sc)).isEmpty, false,
      0 + (if (false : Bool) = true then (natDigits (m / 10 ^ sc)).length else 0),
      0 + (natDigits (m / 10 ^ sc)).length, 0,
      0 * 10 ^ (natDigits (m / 10 ^ sc)).length +
        digitsVal (natDigits (m / 10 ^ sc))⟩ : ScanState) =
      ⟨true, false, 0, (natDigits (m / 10 ^ sc)).length, 0, m / 10 ^ sc⟩ := by
    simp [natDigits_isEmpty, digitsVal_natDigits]
  rw [hrec1]
  rw [decScanLoop_dot p r _ _ rfl]
  rw [← List.append_nil (natPad (m % 10 ^ sc) sc)]
  rw [decScanLoop_digits_append p r [] (natPad (m % 10 ^ sc) sc) _
    (natPad_all_digits _ _) (by simp [hpadlen]; omega)]
  have hrec2 : (⟨true || !(natPad (m % 10 ^ sc) sc).isEmpty, true,
      0 + (if (true : Bool) = true then (natPad (m % 10 ^ sc) sc).length else 0),
      (natDigits (m / 10 ^ sc)).length + (natPad (m % 10 ^ sc) sc).length, 0,
      m / 10 ^ sc * 10 ^ (natPad (m % 10 ^ sc) sc).length +
        digitsVal (natPad (m % 10 ^ sc) sc)⟩ : ScanState) =
      ⟨true, true, sc, (natDigits (m / 10 ^ sc)).length + sc, 0, m⟩ := by
    simp only [ScanState.mk.injEq]
    refine ⟨by simp, trivial, by simp [hpadlen], by rw [hpadlen], trivial, ?_⟩
    rw [hpadlen, digitsVal_natPad]
    exact hval
  rw [hrec2]
  dsimp only [decScanLoop]
  have hae : applyExponent ((natDigits (m / 10 ^ sc)).length + sc) sc 0 m =
      ⟨m, (((natDigits (m / 10 ^ sc)).length + sc : Nat) : Int), (sc : Int)⟩ := by
    simp only [applyExponent]
    rw [if_neg (by omega)]
    simp only [AEOut.mk.injEq]
    refine ⟨trivial, ?_, by omega⟩
    rw [if_neg (by push_cast; omega)]
  rw [hae]
  rw [decClassify_success p sc r neg _ _ rfl (by simp; omega) rfl]

theorem renderNat_parse_zero_sczero (p : Nat) (r neg : Bool) :
    stringToDecimal ((if neg then [Char.ofNat 45] else []) ++ renderNat 0 0)
      p 0 r = (.Success, applySign neg 0) := by
  unfold stringToDecimal
  rw [decPrep_render_zero_sczero neg]
  dsimp only [decScanLoop]
  have hae : applyExponent 0 0 0 0 = ⟨0, 0, 0⟩ := by decide
  rw [hae]
  rw [decClassify_success p 0 r neg _ _ rfl (by simp) (by simp)]

theorem renderNat_parse_zero_scpos (p sc : Nat) (r neg : Bool)
    (hsc : 1 ≤ sc) (hscp : sc ≤ p) :
    stringToDecimal ((if neg then [Char.ofNat 45] else []) ++ renderNat 0 sc)
      p sc r = (.Success, applySign neg 0) := by
  unfold stringToDecimal
  rw [decPrep_render_zero_scpos neg sc hsc]
  dsimp only [decScanLoop]
  have hae : applyExponent 0 sc 0 0 = ⟨0, (sc : Int), (sc : Int)⟩ := by
    simp only [applyExponent]
    rw [if_neg (by omega)]
    simp only [AEOut.mk.injEq]
    refine ⟨trivial, ?_, by omega⟩
    rw [if_pos (by omega)]
    omega
  rw [hae]
  rw [decClassify_success p sc r neg _ _ rfl (by simp; omega) rfl]

theorem decScanLoop_digits_only (p : Nat) (r : Bool) (ds : List Char)
    (st : ScanState) (hds : ∀ c ∈ ds, 48 ≤ c.toNat ∧ c.toNat ≤ 57)
    (hlen : st.tdc + ds.length ≤ p) :
    decScanLoop p r st ds =
      .inr (⟨st.foundValue || !ds.isEmpty, st.foundDot,
        st.dadc + (if st.foundDot = true then ds.length else 0),
        st.tdc + ds.length, st.firstTrunc,
        st.value * 10 ^ ds.length + digitsVal ds⟩, 0) := by
  have h := decScanLoop_digits_append p r [] ds st hds hlen
  rw [List.append_nil] at h
  rw [h]
  rfl

theorem renderNat_parse_rem_pos (p sc : Nat) (r neg : Bool) (m : Nat)
    (hsc : 1 ≤ sc) (hscp : sc ≤ p) (hq : m / 10 ^ sc = 0) (hm : 0 < m) :
    stringToDecimal ((if neg then [Char.ofNat 45] else []) ++ renderNat m sc)
      p sc r = (.Success, applySign neg m) := by
  have hrem : m % 10 ^ sc = m := by
    have hdm := Nat.div_add_mod m (10 ^ sc)
    rw [hq, Nat.mul_zero, Nat.zero_add] at hdm
    exact hdm
  have hremlt : m % 10 ^ sc < 10 ^ sc :=
    Nat.mod_lt m (Nat.pos_pow_of_pos sc (by omega))
  have hlenr : (natDigits (m % 10 ^ sc)).length ≤ sc :=
    natDigits_length_le _ _ hremlt hsc
  unfold stringToDecimal
  rw [decPrep_render_rem_pos neg m sc hsc hq hm]
  dsimp only
  rw [decScanLoop_digits_only p r (natDigits (m % 10 ^ sc)) _
    (natDigits_all_digits _) (by simp; omega)]
  have hrec : (⟨true || !(natDigits (m % 10 ^ sc)).isEmpty, true,
      (sc - (natDigits (m % 10 ^ sc)).length) +
        (if (true : Bool) = true then (natDigits (m % 10 ^ sc)).length else 0),
      0 + (natDigits (m % 10 ^ sc)).length, 0,
      0 * 10 ^ (natDigits (m % 10 ^ sc)).length +
        digitsVal (natDigits (m % 10 ^ sc))⟩ : ScanState) =
      ⟨true, true, sc, (natDigits (m % 10 ^ sc)).length, 0, m % 10 ^ sc⟩ := by
    simp only [ScanState.mk.injEq]
    refine ⟨by simp, trivial, by simp; omega, by simp, trivial, ?_⟩
    simp [digitsVal_natDigits]
  rw [hrec]
  dsimp only
  have hae : applyExponent (natDigits (m % 10 ^ sc)).length sc 0 (m % 10 ^ sc) =
      ⟨m % 10 ^ sc, (sc : Int), (sc : Int)⟩ := by
    simp only [applyExponent]
    rw [if_neg (by omega)]
    simp only [AEOut.mk.injEq]
    refine ⟨trivial, ?_, by omega⟩
    split <;> omega
  rw [hae]
  rw [decClassify_success p sc r neg _ _ rfl (by simp; omega) rfl, hrem]

theorem renderNat_parse (p sc : Nat) (r neg : Bool) (m : Nat)
    (hm : m < 10 ^ p) (hscp : sc ≤ p) :
    stringToDecimal ((if neg then [Char.ofNat 45] else []) ++ renderNat m sc)
      p sc r = (.Success, applySign neg m) := by
  by_cases hsc : sc = 0
  · subst hsc
    by_cases hq : 0 < m
    · exact renderNat_parse_qpos_sczero p r neg m hm hq
    · have hz : m = 0 := by omega
      subst hz
      exact renderNat_parse_zero_sczero p r neg
  · have hsc1 : 1 ≤ sc := by omega
    by_cases hq : 0 < m / 10 ^ sc
    · exact renderNat_parse_qpos_scpos p sc r neg m hm hsc1 hscp hq
    · have hq0 : m / 10 ^ sc = 0 := Nat.le_zero.mp (Nat.not_lt.mp hq)
      by_cases hm0 : 0 < m
      · exact renderNat_parse_rem_pos p sc r neg m hsc1 hscp hq0 hm0
      · have hz : m = 0 := by omega
        subst hz
        exact renderNat_parse_zero_scpos p sc r neg hsc1 hscp

theorem renderDecimal_parse (v : Int) (p sc : Nat) (r : Bool)
    (h1 : v.natAbs < 10 ^ p) (h2 : sc ≤ p) :
    stringToDecimal (renderDecimal v sc) p sc r = (.Success, v) := by
  unfold renderDecimal
  by_cases hneg : v < 0
  · rw [if_pos hneg]
    have h := renderNat_parse p sc r true v.natAbs h1 h2
    rw [show (if (true : Bool) then [Char.ofNat 45] else []) = [Char.ofNat 45]
      from rfl] at h
    rw [h]
    have hs : applySign true v.natAbs = v := by
      simp only [applySign, if_pos]
      omega
    rw [hs]
  · rw [if_neg hneg]
    have h := renderNat_parse p sc r false v.natAbs h1 h2
    rw [show (if (false : Bool) then [Char.ofNat 45] else []) = ([] : List Char)
      from rfl, List.nil_append] at h
    rw [List.nil_append, h]
    have hs : applySign false v.natAbs = v := by
      unfold applySign
      rw [if_neg (by simp : ¬(false : Bool) = true)]
      omega
    rw [hs]

/-- C9: idempotence of `parse_decimal` on canonical renderings — whenever
`parse_decimal(s, p, sc, r)` returns `Success` with raw value `v`, parsing
the canonical textual rendering of `v` (its sign, the integer digits, and —
for `sc > 0` — a dot followed by exactly `sc` fractional digits) with the
same parameters returns `Success` with the identical raw value `v`. -/
theorem parse_decimal_idempotent (s : List Char) (p sc : Nat) (r : Bool)
    (v : Int) (h : stringToDecimal s p sc r = (.Success, v)) :
    stringToDecimal (renderDecimal v sc) p sc r = (.Success, v) := by
  obtain ⟨hb, hscp⟩ := stringToDecimal_success_bound s p sc r v h
  exact renderDecimal_parse v p sc r hb hscp

/-- C9 witness: "123.45" parses as `Success` 12345 at precision 5, scale 2,
and re-parsing its rendering yields the same value. -/
theorem parse_decimal_idempotent_witness :
    stringToDecimal (renderDecimal 12345 2) 5 2 true = (.Success, 12345) :=
  parse_decimal_idempotent (chars "123.45") 5 2 true 12345 (by decide)

end StringParserModel
